import Mathlib

/-!
Verification of the TCMB exchange-rate fetch/resample pipeline (`app.py`).

The development shallowly embeds the pipeline's core functions:

* `_num`            — the quote-field text parser (`app.py` lines 23-30);
* `tcmb_xml_url`    — the per-day feed URL builder (lines 19-21);
* `parse_tcmb_xml`  — XML-to-record extraction (lines 32-48);
* `fetch_range`     — the range fetcher (lines 50-79), with the network
                      modelled as an oracle `net : Int → NetResult`;
* `apply_frequency` — the frequency resampler (lines 82-120).

Modelling conventions:

* Python `str` is modelled as Lean `String` (a list of `Char`); `str.strip`,
  `str.replace(",", ".")` and `str.upper` are modelled on the underlying
  character list.  Python's `strip()` removes Unicode whitespace; the model
  uses `Char.isWhitespace`, which covers the ASCII whitespace appearing in
  feed text.
* Python `float` values are modelled as exact rationals `ℚ`: the feed's
  quote fields are plain decimal literals, whose parsed values embed into
  `ℚ` exactly.  `float(txt)` is modelled on the plain decimal grammar
  (optional sign, digits, at most one point); Python additionally accepts
  exponent notation, `inf`/`nan` and underscore separators, none of which
  occur in quote text.
* `datetime.date` values handled by `fetch_range` are modelled as `Int`
  day numbers: Python date comparison, `date + timedelta(days=i)` and
  `(end - start).days` are exactly `Int` comparison, addition and
  subtraction under the day-number correspondence.  `apply_frequency`
  reads calendar components (`.year`, `.month`), so its dates are
  modelled as explicit `YMD` triples ordered lexicographically, which is
  the calendar order on valid dates.
* `pandas.DataFrame` values produced by the pipeline are modelled as
  `Table`: a column-key list plus date-indexed rows of optional rationals.
* `requests.get` / `time.sleep` / the progress callback are effects: the
  network is an oracle argument, the sleep is irrelevant to the results,
  and `fetch_range` returns the list of `(date, success)` callback
  invocations alongside the table.
-/

namespace Tcmb

/-! ## String helpers (Python `str` methods used by the source) -/

/-- Python `str.strip()` on the character list: drop leading and trailing
whitespace. -/
def pyStrip (l : List Char) : List Char :=
  ((l.dropWhile Char.isWhitespace).reverse.dropWhile Char.isWhitespace).reverse

/-- One character of Python `str.replace(",", ".")`. -/
def commaToDot (c : Char) : Char := if c = ',' then '.' else c

/-- Python `str.upper()` (ASCII; feed currency codes are ASCII). -/
def pyUpper (s : String) : String := ⟨s.data.map Char.toUpper⟩

/-! ## `_num` — the quote-field parser (`app.py` lines 23-30)

```python
def _num(text: str | None):
    if text is None:
        return None
    txt = text.strip().replace(",", ".")
    try:
        return float(txt)
    except Exception:
        return None
```
-/

/-- Leading-sign step of `float()` parsing: strip at most one `+`/`-`,
returning whether the value is negated and the rest of the text. -/
def parseSign : List Char → Bool × List Char
  | [] => (false, [])
  | c :: t => if c = '-' then (true, t) else if c = '+' then (false, t) else (false, c :: t)

/-- Value of a digit string, most significant first. -/
def digitsToNat (l : List Char) : ℕ :=
  l.foldl (fun a c => 10 * a + (c.toNat - 48)) 0

/-- Unsigned part of `float()` on a plain decimal literal: digits with an
optional point (`"34"`, `"34.56"`, `"34."`, `".5"`); anything else fails. -/
def parseUnsigned (l : List Char) : Option ℚ :=
  let ip := l.takeWhile Char.isDigit
  match l.dropWhile Char.isDigit with
  | [] => if ip.isEmpty then none else some (digitsToNat ip)
  | c :: r2 =>
      if c = '.' then
        let fp := r2.takeWhile Char.isDigit
        if (r2.dropWhile Char.isDigit).isEmpty then
          if ip.isEmpty && fp.isEmpty then none
          else some ((digitsToNat ip : ℚ) + (digitsToNat fp : ℚ) / (10 : ℚ) ^ fp.length)
        else none
      else none

/-- Python `float(txt)` on the plain decimal grammar, as an exact rational;
`none` models the raised `ValueError`. -/
def parseDec (l : List Char) : Option ℚ :=
  let s := parseSign l
  (parseUnsigned s.2).map (fun q => if s.1 then -q else q)

/-- The quote-field parser `_num`: `None` input propagates, otherwise the
text is stripped, decimal commas become points, and the result is parsed;
a parse failure is caught and returns `None`. -/
def _num : Option String → Option ℚ
  | none => none
  | some s => parseDec ((pyStrip s.data).map commaToDot)

/-! Spec-side grammar predicate for "well-formed numeric text": after an
optional sign, a non-empty string of digits and points with at most one
point and at least one digit.  Stated independently of the parser so that
`parseDec`'s success can be proved equivalent to it. -/

/-- Characters admissible in the unsigned part of a decimal literal. -/
def isNumLike (c : Char) : Bool := c.isDigit || c = '.'

/-- Well-formedness of the unsigned part of a decimal literal. -/
def wfUnsigned (l : List Char) : Bool :=
  !l.isEmpty && l.all isNumLike && decide (l.count '.' ≤ 1) && l.any Char.isDigit

/-- Well-formed plain decimal literal: optional sign, then `wfUnsigned`. -/
def wfNum (l : List Char) : Bool := wfUnsigned (parseSign l).2

/-! ## `tcmb_xml_url` — the URL builder (`app.py` lines 19-21)

```python
def tcmb_xml_url(d: dt.date) -> str:
    return f"https://www.tcmb.gov.tr/kurlar/{d.year}{d.month:02d}/{d.strftime('%d%m%Y')}.xml"
```
-/

/-- Decimal digits of `n`, most significant first, by fuel-bounded
recursion (`fuel > n` suffices); the model of Python's integer rendering. -/
def digitsFuel : ℕ → ℕ → List ℕ
  | 0, _ => []
  | fuel + 1, n => if n < 10 then [n] else digitsFuel fuel (n / 10) ++ [n % 10]

/-- Python `str(n)` / `"%d" % n` for a natural number. -/
def natRepr (n : ℕ) : String := ⟨(digitsFuel (n + 1) n).map (fun d => Char.ofNat (48 + d))⟩

/-- Python `f"{n:02d}"` (and `strftime` `%d`/`%m`): pad to width two with a
leading zero. -/
def pad2 (n : ℕ) : String := if n < 10 then ("0") ++ natRepr n else natRepr n

/-- A calendar date as a (year, month, day) triple.  Valid dates are ordered
lexicographically, which coincides with `datetime.date` order. -/
structure YMD where
  y : ℕ
  m : ℕ
  d : ℕ
deriving DecidableEq, Repr

/-- The per-day feed URL.  `{d.year}` renders the year with no padding
(CPython renders `int` without leading zeros); `strftime('%d%m%Y')` pads
day and month to two digits, and `%Y` renders the year unpadded on glibc
platforms (it is only four digits wide because realistic years are). -/
def tcmb_xml_url (d : YMD) : String :=
  "https://www.tcmb.gov.tr/kurlar/" ++ natRepr d.y ++ pad2 d.m ++ "/" ++
    pad2 d.d ++ pad2 d.m ++ natRepr d.y ++ ".xml"

/-! ## Document parsing — `parse_tcmb_xml` (`app.py` lines 32-48)

An XML document is modelled post-markup: either `none` (unparseable markup,
`ET.fromstring` raises) or the list of `<Currency>` entries in document
order, each carrying its optional `Kod` attribute and the optional text of
its four quote children (`findtext` returns `None` for a missing child). -/

/-- One `<Currency>` element of the feed document. -/
structure XmlEntry where
  kod : Option String
  forexBuying : Option String
  forexSelling : Option String
  banknoteBuying : Option String
  banknoteSelling : Option String
deriving DecidableEq, Repr

/-- The four parsed quote fields of one currency on one day. -/
structure Quote where
  forexBuying : Option ℚ
  forexSelling : Option ℚ
  banknoteBuying : Option ℚ
  banknoteSelling : Option ℚ
deriving DecidableEq, Repr

/-- Column field names of the pivoted table. -/
inductive Field where
  | forexBuying
  | forexSelling
  | banknoteBuying
  | banknoteSelling
deriving DecidableEq, Repr

/-- Project one field out of a quote. -/
def Quote.get : Quote → Field → Option ℚ
  | q, .forexBuying => q.forexBuying
  | q, .forexSelling => q.forexSelling
  | q, .banknoteBuying => q.banknoteBuying
  | q, .banknoteSelling => q.banknoteSelling

/-- Python `dict` assignment `out[code] = vals`: replace in place if the key
exists, otherwise append (insertion order is preserved). -/
def upsert (l : List (String × Quote)) (key : String) (val : Quote) : List (String × Quote) :=
  if l.any (fun p => p.1 = key) then
    l.map (fun p => if p.1 = key then (key, val) else p)
  else l ++ [(key, val)]

/-- Loop body of `parse_tcmb_xml`: normalize the code, skip empty codes and
codes outside a non-empty wanted set, and store the four parsed fields. -/
def parseEntryStep (wanted : List String) (acc : List (String × Quote)) (e : XmlEntry) :
    List (String × Quote) :=
  let code := pyUpper ⟨pyStrip (e.kod.getD ("")).data⟩
  if code.data.isEmpty then acc
  else if !wanted.isEmpty && wanted.all (fun w => w ≠ code) then acc
  else upsert acc code
    ⟨_num e.forexBuying, _num e.forexSelling, _num e.banknoteBuying, _num e.banknoteSelling⟩

/-- `parse_tcmb_xml(content, wanted_codes)`: `none` models the propagated
markup error; otherwise the mapping from currency code to quote, in
first-insertion order. -/
def parse_tcmb_xml (content : Option (List XmlEntry)) (wanted : List String) :
    Option (List (String × Quote)) :=
  content.map (fun entries => entries.foldl (parseEntryStep wanted) [])

/-! ## Tables

A `RateTable` / `ResampledTable` (a pandas `DataFrame` with a date index and
`(code, field)` columns) is modelled as the column-key list together with the
rows, each row a date and one optional rational per column key. -/

/-- A row of cell values, one per column key, in column order. -/
abbrev RowVals := List (Option ℚ)

/-- A date-indexed table with `(currency-code, field)` columns.  `δ` is the
date type: `Int` day numbers for the fetcher, `YMD` for the resampler. -/
structure Table (δ : Type) where
  cols : List (String × Field)
  rows : List (δ × RowVals)
deriving DecidableEq, Repr

/-- The explicitly empty table, modelling `pd.DataFrame()`. -/
def Table.empty {δ : Type} : Table δ := ⟨[], []⟩

/-- Rows are strictly ascending in their date index: the "ascending, unique"
RateTable shape invariant. -/
def rowsStrictSorted {δ : Type} [LT δ] (rows : List (δ × RowVals)) : Prop :=
  List.Pairwise (fun a b => a < b) (rows.map Prod.fst)

instance {δ : Type} [LT δ] [h : DecidableRel (fun a b : δ => a < b)]
    (rows : List (δ × RowVals)) : Decidable (rowsStrictSorted rows) := by
  unfold rowsStrictSorted
  infer_instance

/-! ## Range fetcher — `fetch_range` (`app.py` lines 50-79) -/

/-- One long-form record: `{"date": d, "code": code, **vals}`. -/
structure Rec where
  date : Int
  code : String
  quote : Quote
deriving DecidableEq, Repr

/-- Outcome of `requests.get(tcmb_xml_url(d), timeout=15)` for one day:
either a raised exception (network error, timeout) or a response carrying
an HTTP status and a document. -/
inductive NetResult where
  | raises
  | resp (status : ℕ) (doc : Option (List XmlEntry))
deriving DecidableEq

/-- The loop body of `fetch_range` for one date: the records appended and
the `ok` flag reported to the progress callback.  A raised fetch, a
non-200 status, a markup error, and an empty parse result all yield
`([], false)`; a non-empty parse yields one record per extracted currency
and `true`. -/
def dayResult (net : Int → NetResult) (wanted : List String) (d : Int) :
    List Rec × Bool :=
  match net d with
  | .raises => ([], false)
  | .resp status doc =>
      if status = 200 then
        match parse_tcmb_xml doc wanted with
        | none => ([], false)
        | some parsed =>
            if parsed.isEmpty then ([], false)
            else (parsed.map (fun p => ⟨d, p.1, p.2⟩), true)
      else ([], false)

/-- The dates enumerated by `for i in range((end - start).days + 1)`. -/
def dateRange (start endD : Int) : List Int :=
  (List.range (endD - start + 1).toNat).map (fun i : ℕ => start + (i : Int))

/-- The uppercased wanted-code set. -/
def wantedOf (codes : List String) : List String := codes.map pyUpper

/-- All records collected across the run. -/
def fetchRecords (net : Int → NetResult) (start endD : Int) (codes : List String) : List Rec :=
  (dateRange start endD).flatMap (fun d => (dayResult net (wantedOf codes) d).1)

/-- The `(date, success)` progress-callback invocations, in order. -/
def fetchLog (net : Int → NetResult) (start endD : Int) (codes : List String) :
    List (Int × Bool) :=
  (dateRange start endD).map (fun d => (d, (dayResult net (wantedOf codes) d).2))

/-- Mean of the non-null values for one `(date, code, field)` cell —
`pivot_table`'s default `aggfunc="mean"` over the matching records
(`NaN` values are excluded; an all-`NaN` cell stays `NaN`). -/
def cellMean (recs : List Rec) (d : Int) (c : String) (f : Field) : Option ℚ :=
  let vs := (recs.filter (fun r => r.date = d && r.code = c)).filterMap (fun r => r.quote.get f)
  if vs.isEmpty then none else some (vs.sum / vs.length)

/-- Rank of a field under pandas' alphabetical column-name order
(`BanknoteBuying < BanknoteSelling < ForexBuying < ForexSelling`). -/
def fieldRank : Field → ℕ
  | .banknoteBuying => 0
  | .banknoteSelling => 1
  | .forexBuying => 2
  | .forexSelling => 3

/-- Lexicographic order on column keys, `sort_index(axis=1, level=0)`:
codes ascending, fields by name within a code. -/
def colLE (a b : String × Field) : Prop :=
  a.1 < b.1 ∨ (a.1 = b.1 ∧ fieldRank a.2 ≤ fieldRank b.2)

instance : DecidableRel colLE := fun a b => by
  unfold colLE; infer_instance

/-- The pivot step of `fetch_range`: rows indexed by the sorted distinct
dates, columns the sorted distinct `(code, field)` keys having at least one
non-null value (`pivot_table` drops all-`NaN` columns), cells aggregated by
`cellMean`. -/
def buildTable (recs : List Rec) : Table Int :=
  let dates := List.insertionSort (fun a b : Int => a ≤ b) (recs.map Rec.date).dedup
  let cols := List.insertionSort colLE
    ((recs.flatMap (fun r =>
      [Field.banknoteBuying, .banknoteSelling, .forexBuying, .forexSelling].filterMap
        (fun f => if (r.quote.get f).isSome then some (r.code, f) else none))).dedup)
  ⟨cols, dates.map (fun d => (d, cols.map (fun c => cellMean recs d c.1 c.2)))⟩

/-- `fetch_range(start, end, currency_codes, on_progress)`: returns the
assembled table (the explicitly empty table when no records were collected)
together with the progress-callback log.  The fixed `time.sleep(0.03)`
between requests does not affect either component and is not modelled. -/
def fetch_range (net : Int → NetResult) (start endD : Int) (codes : List String) :
    Table Int × List (Int × Bool) :=
  let recs := fetchRecords net start endD codes
  (if recs.isEmpty then Table.empty else buildTable recs, fetchLog net start endD codes)

/-! ## Frequency resampler — `apply_frequency` (`app.py` lines 82-120) -/

/-- Date order on `YMD` triples (lexicographic; for valid calendar dates
this is `datetime.date` / `pd.Timestamp` order). -/
def ymdLE (a b : YMD) : Prop :=
  a.y < b.y ∨ (a.y = b.y ∧ (a.m < b.m ∨ (a.m = b.m ∧ a.d ≤ b.d)))

/-- Strict date order on `YMD` triples. -/
def ymdLT (a b : YMD) : Prop :=
  a.y < b.y ∨ (a.y = b.y ∧ (a.m < b.m ∨ (a.m = b.m ∧ a.d < b.d)))

instance : DecidableRel ymdLE := fun a b => by unfold ymdLE; infer_instance

instance : DecidableRel ymdLT := fun a b => by unfold ymdLT; infer_instance

instance : LT YMD := ⟨ymdLT⟩

instance : Inhabited YMD := ⟨⟨1, 1, 1⟩⟩

instance (a b : YMD) : Decidable (a < b) := by
  show Decidable (ymdLT a b); infer_instance

/-- Row order used by `sort_index()` / `pd.concat(...).sort_index()`:
compare rows by their date index. -/
def rowLE (a b : YMD × RowVals) : Prop := ymdLE a.1 b.1

instance : DecidableRel rowLE := fun a b => by unfold rowLE; infer_instance

/-- Lexicographic order on `(year, month)` pairs, as Python sorts tuples. -/
def pairLE (a b : ℕ × ℕ) : Prop := a.1 < b.1 ∨ (a.1 = b.1 ∧ a.2 ≤ b.2)

instance : DecidableRel pairLE := fun a b => by unfold pairLE; infer_instance

instance : IsTotal YMD ymdLE :=
  ⟨by intro a b; unfold ymdLE; omega⟩

instance : IsTrans YMD ymdLE :=
  ⟨by intro a b c; unfold ymdLE; omega⟩

instance : IsTotal (YMD × RowVals) rowLE :=
  ⟨by intro a b; exact total_of ymdLE a.1 b.1⟩

instance : IsTrans (YMD × RowVals) rowLE :=
  ⟨by intro a b c hab hbc; exact trans_of ymdLE hab hbc⟩

instance : IsTotal (ℕ × ℕ) pairLE :=
  ⟨by intro a b; unfold pairLE; omega⟩

instance : IsTrans (ℕ × ℕ) pairLE :=
  ⟨by intro a b c; unfold pairLE; omega⟩

/-- `df.sort_index()` on the rows of a `YMD` table. -/
def sortRows (rows : List (YMD × RowVals)) : List (YMD × RowVals) :=
  List.insertionSort rowLE rows

/-- Forward-fill one row from the running last-seen values: a null cell
takes the accumulator's value, a non-null cell stands (and becomes the new
accumulator entry). -/
def fillRow : RowVals → RowVals → RowVals
  | [], r => r
  | _, [] => []
  | a :: as, c :: cs => (match c with | some v => some v | none => a) :: fillRow as cs

/-- `df.ffill()` down the rows, given the values carried in so far. -/
def ffillAux (acc : RowVals) : List (YMD × RowVals) → List (YMD × RowVals)
  | [] => []
  | (d, r) :: rest =>
      let r2 := fillRow acc r
      (d, r2) :: ffillAux r2 rest

/-- `df.ffill()`: forward-fill null cells column-wise; the first row's nulls
stay null. -/
def ffill (rows : List (YMD × RowVals)) : List (YMD × RowVals) := ffillAux [] rows

/-- Gregorian leap year. -/
def isLeap (y : ℕ) : Bool := y % 4 = 0 && (y % 100 != 0 || y % 400 = 0)

/-- Number of days in a month. -/
def lastDayOfMonth (y m : ℕ) : ℕ :=
  if m = 2 then (if isLeap y then 29 else 28)
  else if m = 4 || m = 6 || m = 9 || m = 11 then 30
  else 31

/-- Validity of a `(year, month, day)` triple as a `datetime.date`
(years 1-9999, as in CPython). -/
def validYMD (y m d : ℕ) : Bool :=
  1 ≤ y && y ≤ 9999 && 1 ≤ m && m ≤ 12 && 1 ≤ d && d ≤ lastDayOfMonth y m

/-- `freq_map.get(freq_key)`: the pandas resample rule for the key, `none`
both for `"Günlük"` (whose dict value is `None`) and for keys missing from
the dict. -/
def freqMapGet (k : String) : Option String :=
  if k = "Günlük" then none
  else if k = "İşgünü" then some ("B")
  else if k = "Haftalık" then some ("W-FRI")
  else if k = "Aylık" then some ("M")
  else if k = "3 Aylık" then some ("Q")
  else if k = "6 Aylık" then some ("2Q")
  else if k = "Yıllık" then some ("A")
  else none

/-- The frequency keys offered by the UI (`FREQUENCIES` in `app.py`). -/
def FREQUENCIES : List String :=
  ["Günlük", "İşgünü", "Haftalık", "Aylık", "3 Aylık", "6 Aylık", "Yıllık", "Ayda 2 Kez"]

/-- Days since 1970-01-01 of a valid date (standard civil-from-days
arithmetic); used only to compute weekdays. -/
def toRD (d : YMD) : Int :=
  let y : Int := if d.m ≤ 2 then (d.y : Int) - 1 else (d.y : Int)
  let era : Int := y / 400
  let yoe : Int := y - era * 400
  let mp : Int := (if d.m ≤ 2 then (d.m : Int) + 9 else (d.m : Int) - 3)
  let doy : Int := (153 * mp + 2) / 5 + (d.d : Int) - 1
  let doe : Int := yoe * 365 + yoe / 4 - yoe / 100 + doy
  era * 146097 + doe - 719468

/-- Weekday with Monday = 0 (`date.weekday()`); the offset keeps the
dividend non-negative for all representable years. -/
def weekday (d : YMD) : ℕ := ((toRD d + 3 + 7 * 1000000) % 7).toNat

/-- The calendar day after `d`. -/
def succDate (d : YMD) : YMD :=
  if d.d < lastDayOfMonth d.y d.m then ⟨d.y, d.m, d.d + 1⟩
  else if d.m < 12 then ⟨d.y, d.m + 1, 1⟩
  else ⟨d.y + 1, 1, 1⟩

/-- The calendar day before `d`. -/
def predDate (d : YMD) : YMD :=
  if 1 < d.d then ⟨d.y, d.m, d.d - 1⟩
  else if 1 < d.m then ⟨d.y, d.m - 1, lastDayOfMonth d.y (d.m - 1)⟩
  else ⟨d.y - 1, 12, 31⟩

/-- Bucket label for `resample("M")`: the last calendar day of the month. -/
def labelM (d : YMD) : YMD := ⟨d.y, d.m, lastDayOfMonth d.y d.m⟩

/-- End month of the (Dec-anchored) quarter containing month `m`. -/
def quarterEndMonth (m : ℕ) : ℕ := ((m + 2) / 3) * 3

/-- Bucket label for `resample("Q")`: the last day of the quarter. -/
def labelQ (d : YMD) : YMD :=
  ⟨d.y, quarterEndMonth d.m, lastDayOfMonth d.y (quarterEndMonth d.m)⟩

/-- Bucket label for `resample("A")`: December 31 of the year. -/
def labelA (d : YMD) : YMD := ⟨d.y, 12, 31⟩

/-- Quarter index (quarters since year 0) of a date's quarter end. -/
def quarterIdx (d : YMD) : Int := (d.y : Int) * 4 + (quarterEndMonth d.m : Int) / 3 - 1

/-- Date of the last day of the quarter with index `n`. -/
def quarterIdxEnd (n : Int) : YMD :=
  let y := (n / 4).toNat
  let m := ((n % 4).toNat + 1) * 3
  ⟨y, m, lastDayOfMonth y m⟩

/-- Bucket label for `resample("2Q")`: two-quarter bins whose edges start at
the quarter end of the table's first date (pandas generates the bins with
`date_range(..., freq="2Q")` from the first index value). -/
def label2Q (first : YMD) (d : YMD) : YMD :=
  let k := quarterIdx d - quarterIdx first
  quarterIdxEnd (quarterIdx first + (if k % 2 = 0 then k else k + 1))

/-- Bucket label for `resample("W-FRI")`: the Friday on or after the date. -/
def labelWFri (d : YMD) : YMD :=
  Nat.iterate succDate ((4 + 7 - weekday d) % 7) d

/-- Bucket label for `resample("B")`: weekdays label themselves; Saturday
and Sunday fall into the preceding Friday's bin (bins are generated
left-closed from business days). -/
def labelB (d : YMD) : YMD :=
  if weekday d = 5 then predDate d
  else if weekday d = 6 then predDate (predDate d)
  else d

/-- Dispatch from the pandas rule string to its bucket-label function;
`first` is the table's first index value (only `"2Q"` depends on it). -/
def labelFor (code : String) (first : YMD) : YMD → YMD :=
  if code = "B" then labelB
  else if code = "W-FRI" then labelWFri
  else if code = "M" then labelM
  else if code = "Q" then labelQ
  else if code = "2Q" then label2Q first
  else if code = "A" then labelA
  else id

/-- Last non-null value per column across a bucket's rows, in row order —
`resample(...).last()`'s per-bucket aggregation. -/
def bucketLast (rs : List RowVals) : RowVals := rs.foldl fillRow []

/-- `df.resample(code).last()`: group rows by bucket label and keep the
last non-null value per column of each bucket, indexed by the sorted
distinct labels.  (pandas additionally emits all-null rows for empty bins
between occupied ones; no property below depends on those rows.) -/
def resampleLast (lab : YMD → YMD) (t : Table YMD) : Table YMD :=
  let labels := List.insertionSort ymdLE ((t.rows.map (fun r => lab r.1)).dedup)
  ⟨t.cols, labels.map (fun L =>
    (L, bucketLast ((t.rows.filter (fun r => lab r.1 = L)).map Prod.snd)))⟩

/-- Selection for one twice-monthly anchor `date(y, m, day)`, mirroring the
source: the defensive `except ValueError: continue` guard, then the exact
rows (`df.loc[[t]]`), else the first row of `df.loc[df.index >= t]`, else
the last row of `df.loc[df.index <= t]`, else nothing. -/
def anchorSelect (rows : List (YMD × RowVals)) (y m day : ℕ) : List (YMD × RowVals) :=
  if validYMD y m day then
    let t : YMD := ⟨y, m, day⟩
    if rows.any (fun r => r.1 = t) then rows.filter (fun r => r.1 = t)
    else
      match rows.filter (fun r => ymdLE t r.1) with
      | r :: _ => [r]
      | [] =>
          match (rows.filter (fun r => ymdLE r.1 t)).getLast? with
          | some r => [r]
          | none => []
  else []

/-- `sorted({(d.year, d.month) for d in df.index})`. -/
def monthsOf (rows : List (YMD × RowVals)) : List (ℕ × ℕ) :=
  List.insertionSort pairLE ((rows.map (fun r => (r.1.y, r.1.m))).dedup)

/-- `apply_frequency(df, freq_key)`: empty tables pass through; otherwise
the rows are date-sorted and forward-filled, then reduced per the key —
the custom twice-monthly rule for `"Ayda 2 Kez"`, `resample(code).last()`
for the six period keys, and pass-through for `"Günlük"` and unknown keys.
(`pd.to_datetime` on the index is an order-isomorphism and is absorbed
into the `YMD` date model.) -/
def apply_frequency (t : Table YMD) (freqKey : String) : Table YMD :=
  if t.rows.isEmpty then t
  else
    let filled := ffill (sortRows t.rows)
    if freqKey = "Ayda 2 Kez" then
      let months := monthsOf filled
      let out := months.flatMap (fun p =>
        [1, 15].flatMap (fun day => anchorSelect filled p.1 p.2 day))
      if out.isEmpty then ⟨t.cols, filled⟩
      else ⟨t.cols, List.insertionSort rowLE out⟩
    else
      match freqMapGet freqKey with
      | none => ⟨t.cols, filled⟩
      | some code =>
          resampleLast (labelFor code (filled.headI.1)) ⟨t.cols, filled⟩

/-! Spec-side twice-monthly selection, written from the specification's
words: "for each anchor: if the table has an exact row for that date, use
it; otherwise use the earliest row at or after the anchor date; if none
exists at or after, fall back to the latest row at or before the anchor
date; if neither exists, skip that anchor entirely.  Concatenate all
selected rows across all months and re-sort by date ascending."  The
"earliest"/"latest" rows are picked as date-minima/maxima of the filtered
row set rather than by position. -/

/-- Fold step keeping the row with the strictly smaller date. -/
def minStep (acc : Option (YMD × RowVals)) (r : YMD × RowVals) : Option (YMD × RowVals) :=
  match acc with
  | none => some r
  | some a => if ymdLT r.1 a.1 then some r else acc

/-- The row with the smallest date (the first such, under ties). -/
def minByDate (l : List (YMD × RowVals)) : Option (YMD × RowVals) :=
  l.foldl minStep none

/-- Fold step keeping the row with the larger-or-equal date. -/
def maxStep (acc : Option (YMD × RowVals)) (r : YMD × RowVals) : Option (YMD × RowVals) :=
  match acc with
  | none => some r
  | some a => if ymdLE a.1 r.1 then some r else acc

/-- The row with the largest date (the last such, under ties). -/
def maxByDate (l : List (YMD × RowVals)) : Option (YMD × RowVals) :=
  l.foldl maxStep none

/-- Spec-side selection for one anchor: the exact rows at the anchor if any
exist, else the earliest row at or after it, else the latest row at or
before it, else nothing.  (The claim's anchors `1` and `15` are always
valid calendar days, so the spec states no validity guard.) -/
def specSelect (rows : List (YMD × RowVals)) (y m day : ℕ) : List (YMD × RowVals) :=
  let t : YMD := ⟨y, m, day⟩
  if rows.any (fun r => r.1 = t) then rows.filter (fun r => r.1 = t)
  else
    match minByDate (rows.filter (fun r => ymdLE t r.1)) with
    | some r => [r]
    | none =>
        match maxByDate (rows.filter (fun r => ymdLE r.1 t)) with
        | some r => [r]
        | none => []

/-- Spec-side twice-monthly reduction of the gap-filled rows: selections
for the 1st and 15th of every distinct `(year, month)` present, re-sorted
by date ascending. -/
def twiceMonthlySpec (rows : List (YMD × RowVals)) : List (YMD × RowVals) :=
  List.insertionSort rowLE
    (monthsOf rows |>.flatMap (fun p =>
      [1, 15].flatMap (fun day => specSelect rows p.1 p.2 day)))

/-! ## Concrete inputs used by witnesses and counterexamples -/

/-- A one-column table whose second row has a null preceded by a value. -/
def tblNull : Table YMD :=
  ⟨[(("USD"), Field.forexBuying)],
   [(⟨2024, 1, 3⟩, [some 1]), (⟨2024, 1, 4⟩, [none])]⟩

/-- A one-column table with no null cells. -/
def tblFull : Table YMD :=
  ⟨[(("USD"), Field.forexBuying)],
   [(⟨2024, 1, 3⟩, [some 1]), (⟨2024, 1, 4⟩, [some 2])]⟩

/-- A table with a single row on 2024-01-20: both January anchors resolve
to it, so the twice-monthly output carries a duplicated date row. -/
def tblOne : Table YMD :=
  ⟨[(("USD"), Field.forexBuying)], [(⟨2024, 1, 20⟩, [some 1])]⟩

/-- The specification's twice-monthly regression table: rows on
2024-01-03, 2024-01-10, 2024-01-20, 2024-02-05. -/
def tblJanFeb : Table YMD :=
  ⟨[(("USD"), Field.forexBuying)],
   [(⟨2024, 1, 3⟩, [some 1]), (⟨2024, 1, 10⟩, [some 2]),
    (⟨2024, 1, 20⟩, [some 3]), (⟨2024, 2, 5⟩, [some 4])]⟩

/-- A network oracle where every request raises. -/
def netRaises : Int → NetResult := fun _ => .raises

/-- A feed entry for code `"usd "` (to be trimmed and upper-cased) with one
well-formed field, one missing field, and one malformed field. -/
def entryUSD : XmlEntry :=
  ⟨some ("usd "), some ("1,5"), none, some ("x"), some ("2.25")⟩

/-- A network oracle answering every day with status 200 and one entry. -/
def netUSD : Int → NetResult := fun _ => .resp 200 (some [entryUSD])

/-- The parse result of the one-entry document with no code filter. -/
def psUSD : List (String × Quote) := [entryUSD].foldl (parseEntryStep (wantedOf [])) []

/-- A network oracle answering status 200 with a well-formed but empty
document (no currency entries). -/
def netEmptyDoc : Int → NetResult := fun _ => .resp 200 (some [])

/-! ## Helper lemmas -/

theorem ymdLE_of_lt {a b : YMD} (h : ymdLT a b) : ymdLE a b := by
  unfold ymdLT at h; unfold ymdLE; omega

theorem ymdLT_of_le_of_ne {a b : YMD} (h : ymdLE a b) (hne : a ≠ b) : ymdLT a b := by
  obtain ⟨ay, am, ad⟩ := a
  obtain ⟨cy, cm, cd⟩ := b
  simp only [ymdLE, ymdLT] at h ⊢
  simp only [ne_eq, YMD.mk.injEq] at hne
  omega

theorem ymdLT_asymm {a b : YMD} (h : ymdLT a b) : ¬ ymdLT b a := by
  unfold ymdLT at *; omega

theorem flatMap_congr {α β : Type _} {l : List α} {f g : α → List β}
    (h : ∀ a ∈ l, f a = g a) : l.flatMap f = l.flatMap g := by
  induction l with
  | nil => rfl
  | cons a t ih =>
      simp only [List.flatMap_cons]
      rw [h a (List.mem_cons_self a t), ih (fun x hx => h x (List.mem_cons_of_mem a hx))]

theorem pairwise_of_sorted_nodup {α : Type _} {le lt : α → α → Prop}
    (hlt : ∀ a b, le a b → a ≠ b → lt a b) {l : List α}
    (hs : List.Pairwise le l) (hn : l.Nodup) : List.Pairwise lt l :=
  (hs.and hn).imp (fun h => hlt _ _ h.1 h.2)

theorem ffillAux_map_fst (acc : RowVals) (rows : List (YMD × RowVals)) :
    (ffillAux acc rows).map Prod.fst = rows.map Prod.fst := by
  induction rows generalizing acc with
  | nil => rfl
  | cons r rest ih => simpa [ffillAux] using ih (fillRow acc r.2)

theorem ffill_map_fst (rows : List (YMD × RowVals)) :
    (ffill rows).map Prod.fst = rows.map Prod.fst :=
  ffillAux_map_fst [] rows

theorem pairwise_fst_of_strict {rows : List (YMD × RowVals)}
    (h : rowsStrictSorted rows) :
    List.Pairwise (fun a b : YMD × RowVals => ymdLT a.1 b.1) rows :=
  List.pairwise_map.mp h

theorem sorted_rowLE_of_strict {rows : List (YMD × RowVals)}
    (h : rowsStrictSorted rows) : List.Sorted rowLE rows :=
  (pairwise_fst_of_strict h).imp (fun hab => ymdLE_of_lt hab)

theorem sortRows_of_strict {rows : List (YMD × RowVals)}
    (h : rowsStrictSorted rows) : sortRows rows = rows :=
  (sorted_rowLE_of_strict h).insertionSort_eq

theorem ffill_strict {rows : List (YMD × RowVals)} (h : rowsStrictSorted rows) :
    rowsStrictSorted (ffill rows) := by
  unfold rowsStrictSorted
  rw [ffill_map_fst]
  exact h

theorem minStep_const {l : List (YMD × RowVals)} {a : YMD × RowVals}
    (h : ∀ r ∈ l, ymdLT a.1 r.1) : l.foldl minStep (some a) = some a := by
  induction l with
  | nil => rfl
  | cons c u ih =>
      have hac : ymdLT a.1 c.1 := h c (List.mem_cons_self c u)
      have : minStep (some a) c = some a := by
        show (if ymdLT c.1 a.1 then some c else some a) = some a
        rw [if_neg (ymdLT_asymm hac)]
      rw [List.foldl_cons, this]
      exact ih (fun r hr => h r (List.mem_cons_of_mem c hr))

theorem minByDate_eq_head {l : List (YMD × RowVals)}
    (h : List.Pairwise (fun a b => ymdLT a.1 b.1) l) : minByDate l = l.head? := by
  cases l with
  | nil => rfl
  | cons a t =>
      unfold minByDate
      rw [List.foldl_cons]
      show t.foldl minStep (some a) = some a
      exact minStep_const (List.pairwise_cons.mp h).1

theorem maxStep_last {l : List (YMD × RowVals)} :
    ∀ {a : YMD × RowVals}, List.Pairwise (fun x y => ymdLT x.1 y.1) l →
      (∀ r ∈ l, ymdLE a.1 r.1) → l.foldl maxStep (some a) = (a :: l).getLast? := by
  induction l with
  | nil => intro a _ _; rfl
  | cons c u ih =>
      intro a hp h
      have hstep : maxStep (some a) c = some c := by
        show (if ymdLE a.1 c.1 then some c else some a) = some c
        rw [if_pos (h c (List.mem_cons_self c u))]
      rw [List.foldl_cons, hstep, List.getLast?_cons_cons]
      exact ih (List.pairwise_cons.mp hp).2
        (fun r hr => ymdLE_of_lt ((List.pairwise_cons.mp hp).1 r hr))

theorem maxByDate_eq_getLast {l : List (YMD × RowVals)}
    (h : List.Pairwise (fun a b => ymdLT a.1 b.1) l) : maxByDate l = l.getLast? := by
  cases l with
  | nil => rfl
  | cons a t =>
      unfold maxByDate
      rw [List.foldl_cons]
      show t.foldl maxStep (some a) = (a :: t).getLast?
      exact maxStep_last (List.pairwise_cons.mp h).2
        (fun r hr => ymdLE_of_lt ((List.pairwise_cons.mp h).1 r hr))

theorem dropWhile_head_false {α : Type _} (p : α → Bool) :
    ∀ (l : List α) {c : α} {r : List α}, l.dropWhile p = c :: r → p c = false := by
  intro l
  induction l with
  | nil => intro c r h; simp [List.dropWhile] at h
  | cons a t ih =>
      intro c r h
      rw [List.dropWhile_cons] at h
      by_cases ha : p a = true
      · rw [if_pos ha] at h
        exact ih h
      · rw [if_neg ha] at h
        cases h
        exact Bool.eq_false_iff.mpr ha

theorem mem_takeWhile_digit {l : List Char} {c : Char}
    (h : c ∈ l.takeWhile Char.isDigit) : c.isDigit = true :=
  List.mem_takeWhile_imp h

/-! Digit-count lemmas for the URL builder. -/

theorem digitsFuel_succ (f n : ℕ) :
    digitsFuel (f + 1) n = if n < 10 then [n] else digitsFuel f (n / 10) ++ [n % 10] := rfl

theorem digitsFuel_len1 {f n : ℕ} (h : n < 10) : (digitsFuel (f + 1) n).length = 1 := by
  rw [digitsFuel_succ, if_pos h]
  rfl

theorem digitsFuel_len2 {f n : ℕ} (h1 : 10 ≤ n) (h2 : n < 100) (hf : 1 ≤ f) :
    (digitsFuel (f + 1) n).length = 2 := by
  obtain ⟨g, rfl⟩ : ∃ g, f = g + 1 := ⟨f - 1, by omega⟩
  rw [digitsFuel_succ, if_neg (by omega), List.length_append,
    digitsFuel_len1 (show n / 10 < 10 by omega)]
  rfl

theorem digitsFuel_len3 {f n : ℕ} (h1 : 100 ≤ n) (h2 : n < 1000) (hf : 2 ≤ f) :
    (digitsFuel (f + 1) n).length = 3 := by
  obtain ⟨g, rfl⟩ : ∃ g, f = g + 1 := ⟨f - 1, by omega⟩
  rw [digitsFuel_succ, if_neg (by omega), List.length_append,
    digitsFuel_len2 (show 10 ≤ n / 10 by omega) (by omega) (by omega)]
  rfl

theorem digitsFuel_len4 {f n : ℕ} (h1 : 1000 ≤ n) (h2 : n < 10000) (hf : 3 ≤ f) :
    (digitsFuel (f + 1) n).length = 4 := by
  obtain ⟨g, rfl⟩ : ∃ g, f = g + 1 := ⟨f - 1, by omega⟩
  rw [digitsFuel_succ, if_neg (by omega), List.length_append,
    digitsFuel_len3 (show 100 ≤ n / 10 by omega) (by omega) (by omega)]
  rfl

theorem natRepr_length4 {n : ℕ} (h1 : 1000 ≤ n) (h2 : n ≤ 9999) :
    (natRepr n).length = 4 := by
  show ((digitsFuel (n + 1) n).map _).length = 4
  rw [List.length_map]
  exact digitsFuel_len4 h1 (by omega) (by omega)

theorem natRepr_length1 {n : ℕ} (h : n < 10) : (natRepr n).length = 1 := by
  show ((digitsFuel (n + 1) n).map _).length = 1
  rw [List.length_map]
  exact digitsFuel_len1 h

theorem natRepr_length2 {n : ℕ} (h1 : 10 ≤ n) (h2 : n < 100) : (natRepr n).length = 2 := by
  show ((digitsFuel (n + 1) n).map _).length = 2
  rw [List.length_map]
  exact digitsFuel_len2 h1 h2 (by omega)

theorem pad2_length {n : ℕ} (h1 : 1 ≤ n) (h2 : n ≤ 99) : (pad2 n).length = 2 := by
  unfold pad2
  by_cases h : n < 10
  · rw [if_pos h, String.length_append, natRepr_length1 h]
    rfl
  · rw [if_neg h, natRepr_length2 (by omega) (by omega)]

/-! Fetch-layer lemmas. -/

theorem fetchLog_map_fst (net : Int → NetResult) (s e : Int) (codes : List String) :
    (fetchLog net s e codes).map Prod.fst = dateRange s e := by
  unfold fetchLog
  rw [List.map_map]
  exact List.map_id (dateRange s e)

theorem dateRange_pairwise (s e : Int) : List.Pairwise (· < ·) (dateRange s e) := by
  unfold dateRange
  rw [List.pairwise_map]
  refine (List.pairwise_lt_range _).imp ?_
  intro a b h
  show s + (a : Int) < s + (b : Int)
  omega

theorem dateRange_nodup (s e : Int) : (dateRange s e).Nodup :=
  (dateRange_pairwise s e).imp (fun h => by omega)

theorem dateRange_head (s e : Int) (h : s ≤ e) : (dateRange s e).head? = some s := by
  unfold dateRange
  obtain ⟨k, hk⟩ : ∃ k, (e - s + 1).toNat = k + 1 := ⟨(e - s + 1).toNat - 1, by omega⟩
  rw [hk, List.range_succ_eq_map]
  simp

theorem dateRange_getLast (s e : Int) (h : s ≤ e) : (dateRange s e).getLast? = some e := by
  unfold dateRange
  obtain ⟨k, hk⟩ : ∃ k, (e - s + 1).toNat = k + 1 := ⟨(e - s + 1).toNat - 1, by omega⟩
  rw [hk, List.range_succ, List.map_append, List.getLast?_append]
  have : s + (k : Int) = e := by omega
  simp [this]

theorem dateRange_length (s e : Int) (h : s ≤ e) :
    (dateRange s e).length = (e - s).toNat + 1 := by
  unfold dateRange
  rw [List.length_map, List.length_range]
  omega

theorem dateRange_nil (s e : Int) (h : e < s) : dateRange s e = [] := by
  unfold dateRange
  have : (e - s + 1).toNat = 0 := by omega
  rw [this]
  rfl

theorem dayResult_date (net : Int → NetResult) (w : List String) (d : Int) :
    ∀ r ∈ (dayResult net w d).1, r.date = d := by
  intro r hr
  unfold dayResult at hr
  cases hnet : net d with
  | raises => rw [hnet] at hr; simp at hr
  | resp status doc =>
      rw [hnet] at hr
      dsimp only at hr
      by_cases hs : status = 200
      · rw [if_pos hs] at hr
        cases hpp : parse_tcmb_xml doc w with
        | none => rw [hpp] at hr; simp at hr
        | some ps =>
            rw [hpp] at hr
            dsimp only at hr
            by_cases hp : ps.isEmpty
            · rw [if_pos hp] at hr
              simp at hr
            · rw [if_neg hp] at hr
              obtain ⟨p, _, rfl⟩ := List.mem_map.mp hr
              rfl
      · rw [if_neg hs] at hr
        simp at hr

theorem dayResult_of_false {net : Int → NetResult} {w : List String} {d : Int}
    (h : (dayResult net w d).2 = false) : (dayResult net w d).1 = [] := by
  unfold dayResult at *
  cases hnet : net d with
  | raises => rfl
  | resp status doc =>
      rw [hnet] at h
      dsimp only at h ⊢
      by_cases hs : status = 200
      · rw [if_pos hs] at h ⊢
        cases hpp : parse_tcmb_xml doc w with
        | none => rfl
        | some ps =>
            rw [hpp] at h
            dsimp only at h ⊢
            by_cases hp : ps.isEmpty
            · rw [if_pos hp]
            · rw [if_neg hp] at h
              simp at h
      · rw [if_neg hs]

theorem filter_flatMap_of_nodup (g : Int → List Rec)
    (hg : ∀ d', ∀ r ∈ g d', r.date = d') :
    ∀ (l : List Int), l.Nodup → ∀ d ∈ l,
      (l.flatMap g).filter (fun r => r.date = d) = g d := by
  intro l
  induction l with
  | nil => intro _ d hd; simp at hd
  | cons a t ih =>
      intro hnd d hd
      rw [List.flatMap_cons, List.filter_append]
      rcases List.mem_cons.mp hd with rfl | hdt
      · have h1 : (g d).filter (fun r => r.date = d) = g d :=
          List.filter_eq_self.mpr (fun r hr => by simp [hg d r hr])
        have h2 : (t.flatMap g).filter (fun r => r.date = d) = [] := by
          apply List.filter_eq_nil_iff.mpr
          intro r hr
          obtain ⟨e, he, hre⟩ := List.mem_flatMap.mp hr
          have hrd : r.date = e := hg e r hre
          have hda : e ≠ d := by
            intro hcon
            exact (List.nodup_cons.mp hnd).1 (hcon ▸ he)
          simp [hrd, hda]
        rw [h1, h2, List.append_nil]
      · have ha : a ≠ d := by
          intro hcon
          exact (List.nodup_cons.mp hnd).1 (hcon ▸ hdt)
        have h1 : (g a).filter (fun r => r.date = d) = [] := by
          apply List.filter_eq_nil_iff.mpr
          intro r hr
          have hrd : r.date = a := hg a r hr
          simp [hrd, ha]
        rw [h1, List.nil_append]
        exact ih (List.nodup_cons.mp hnd).2 d hdt

theorem upsert_map_fst_nodup {l : List (String × Quote)} {k : String} {v : Quote}
    (h : (l.map Prod.fst).Nodup) : ((upsert l k v).map Prod.fst).Nodup := by
  unfold upsert
  by_cases hmem : l.any (fun p => p.1 = k)
  · rw [if_pos hmem]
    have heq : (l.map (fun p => if p.1 = k then (k, v) else p)).map Prod.fst = l.map Prod.fst := by
      rw [List.map_map]
      apply List.map_congr_left
      intro p _
      by_cases hp : p.1 = k
      · simp [hp]
      · simp [hp]
    rw [heq]
    exact h
  · rw [if_neg hmem, List.map_append]
    dsimp only [List.map_cons, List.map_nil]
    rw [List.nodup_append]
    refine ⟨h, List.nodup_singleton k, ?_⟩
    intro a ha hb
    rw [List.mem_singleton] at hb
    subst hb
    obtain ⟨p, hp, hpa⟩ := List.mem_map.mp ha
    rw [List.any_eq_true] at hmem
    exact hmem ⟨p, hp, by simp [hpa]⟩

theorem parseFold_map_fst_nodup (w : List String) :
    ∀ (entries : List XmlEntry) (acc : List (String × Quote)),
      (acc.map Prod.fst).Nodup →
      ((entries.foldl (parseEntryStep w) acc).map Prod.fst).Nodup := by
  intro entries
  induction entries with
  | nil => intro acc h; exact h
  | cons e t ih =>
      intro acc h
      rw [List.foldl_cons]
      apply ih
      unfold parseEntryStep
      by_cases h1 : (pyUpper ⟨pyStrip (e.kod.getD ("")).data⟩).data.isEmpty
      · rw [if_pos h1]; exact h
      · rw [if_neg h1]
        by_cases h2 : (!List.isEmpty w && w.all fun x => x ≠ pyUpper ⟨pyStrip (e.kod.getD ("")).data⟩) = true
        · rw [if_pos h2]; exact h
        · rw [if_neg h2]
          exact upsert_map_fst_nodup h

/-! Quote-parser lemmas. -/

theorem all_numLike_of_digits {l : List Char} (h : ∀ c ∈ l, c.isDigit = true) :
    l.all isNumLike = true :=
  List.all_eq_true.mpr (fun c hc => by simp [isNumLike, h c hc])

theorem count_dot_of_digits {l : List Char} (h : ∀ c ∈ l, c.isDigit = true) :
    l.count '.' = 0 :=
  List.count_eq_zero.mpr (fun hdot => by have hd := h _ hdot; simp at hd)

theorem any_digit_of_digits {l : List Char} (h : ∀ c ∈ l, c.isDigit = true) :
    l.any Char.isDigit = !l.isEmpty := by
  cases l with
  | nil => rfl
  | cons a t => simp [h a (List.mem_cons_self a t)]

theorem parseUnsigned_isSome (l : List Char) :
    (parseUnsigned l).isSome = wfUnsigned l := by
  have hipd : ∀ c ∈ l.takeWhile Char.isDigit, c.isDigit = true :=
    fun c hc => List.mem_takeWhile_imp hc
  unfold parseUnsigned
  cases hr : l.dropWhile Char.isDigit with
  | nil =>
      have hsplit : l.takeWhile Char.isDigit = l := by
        have h0 := List.takeWhile_append_dropWhile (p := Char.isDigit) (l := l)
        rw [hr, List.append_nil] at h0
        exact h0
      have hld : ∀ c ∈ l, c.isDigit = true := by rw [← hsplit]; exact hipd
      dsimp only
      by_cases hip : (l.takeWhile Char.isDigit).isEmpty = true
      · rw [if_pos hip]
        have hnil : l = [] := by rw [← hsplit]; exact List.isEmpty_iff.mp hip
        subst hnil
        rfl
      · rw [if_neg hip]
        have hne : l.isEmpty = false := by
          rw [← hsplit]
          exact Bool.eq_false_iff.mpr hip
        have h2 := all_numLike_of_digits hld
        have h3 := count_dot_of_digits hld
        have h4 : l.any Char.isDigit = true := by
          rw [any_digit_of_digits hld, hne]
          rfl
        simp [wfUnsigned, hne, h2, h3, h4]
  | cons c r2 =>
      have hsplit : l = l.takeWhile Char.isDigit ++ c :: r2 := by
        have h0 := (List.takeWhile_append_dropWhile (p := Char.isDigit) (l := l)).symm
        rw [hr] at h0
        exact h0
      have hcd : c.isDigit = false := dropWhile_head_false _ l hr
      dsimp only
      by_cases hc : c = '.'
      · subst hc
        rw [if_pos rfl]
        have hfpd : ∀ x ∈ r2.takeWhile Char.isDigit, x.isDigit = true :=
          fun x hx => List.mem_takeWhile_imp hx
        cases hr3 : r2.dropWhile Char.isDigit with
        | nil =>
            have hfp : r2.takeWhile Char.isDigit = r2 := by
              have h0 := List.takeWhile_append_dropWhile (p := Char.isDigit) (l := r2)
              rw [hr3, List.append_nil] at h0
              exact h0
            have hr2d : ∀ x ∈ r2, x.isDigit = true := by rw [← hfp]; exact hfpd
            rw [if_pos List.isEmpty_nil]
            by_cases hif :
                ((l.takeWhile Char.isDigit).isEmpty && (r2.takeWhile Char.isDigit).isEmpty) = true
            · rw [if_pos hif]
              rw [Bool.and_eq_true, List.isEmpty_iff, List.isEmpty_iff] at hif
              have hr2nil : r2 = [] := by rw [← hfp]; exact hif.2
              have hl : l = ['.'] := by
                rw [hsplit, hif.1, hr2nil]
                rfl
              rw [hl]
              decide
            · rw [if_neg hif]
              have h1 : l.isEmpty = false := by
                rw [hsplit]
                simp
              have h2 : l.all isNumLike = true := by
                rw [hsplit, List.all_append]
                simp only [List.all_cons]
                rw [all_numLike_of_digits hipd, all_numLike_of_digits hr2d]
                decide
              have h3 : l.count '.' = 1 := by
                rw [hsplit, List.count_append, List.count_cons_self,
                  count_dot_of_digits hipd, count_dot_of_digits hr2d]
              have h4 : l.any Char.isDigit = true := by
                rw [hfp] at hif
                rw [hsplit, List.any_append, List.any_cons,
                  any_digit_of_digits hipd, any_digit_of_digits hr2d]
                cases hip2 : (l.takeWhile Char.isDigit).isEmpty with
                | false => simp
                | true =>
                    rw [hip2] at hif
                    simp only [Bool.true_and] at hif
                    rw [Bool.eq_false_iff.mpr hif]
                    simp
              simp [wfUnsigned, h1, h2, h3, h4]
        | cons c2 r4 =>
            have hsplit2 : r2 = r2.takeWhile Char.isDigit ++ c2 :: r4 := by
              have h0 := (List.takeWhile_append_dropWhile (p := Char.isDigit) (l := r2)).symm
              rw [hr3] at h0
              exact h0
            have hc2d : c2.isDigit = false := dropWhile_head_false _ r2 hr3
            rw [if_neg (by simp)]
            by_cases hc2 : c2 = '.'
            · subst hc2
              have h3 : ¬ l.count '.' ≤ 1 := by
                rw [hsplit, hsplit2]
                simp only [List.count_append, List.count_cons_self,
                  count_dot_of_digits hipd, count_dot_of_digits hfpd]
                omega
              have : wfUnsigned l = false := by
                unfold wfUnsigned
                rw [decide_eq_false h3]
                simp
              rw [this]
              rfl
            · have h2 : l.all isNumLike = false := by
                apply List.all_eq_false.mpr
                refine ⟨c2, ?_, by simp [isNumLike, hc2d, hc2]⟩
                rw [hsplit, hsplit2]
                exact List.mem_append_right _
                  (List.mem_cons_of_mem _ (List.mem_append_right _ (List.mem_cons_self _ _)))
              simp [wfUnsigned, h2]
      · rw [if_neg hc]
        have h2 : l.all isNumLike = false := by
          apply List.all_eq_false.mpr
          refine ⟨c, ?_, by simp [isNumLike, hcd, hc]⟩
          rw [hsplit]
          exact List.mem_append_right _ (List.mem_cons_self _ _)
        simp [wfUnsigned, h2]

theorem commaToDot_invol (c : Char) : commaToDot (commaToDot c) = commaToDot c := by
  unfold commaToDot
  by_cases h : c = ','
  · simp [h]
  · simp [h]

theorem isWhitespace_commaToDot (c : Char) :
    (commaToDot c).isWhitespace = c.isWhitespace := by
  unfold commaToDot
  by_cases h : c = ','
  · subst h
    decide
  · rw [if_neg h]

theorem pyStrip_map_commaToDot (l : List Char) :
    pyStrip (l.map commaToDot) = (pyStrip l).map commaToDot := by
  have hws : (Char.isWhitespace ∘ commaToDot) = Char.isWhitespace := by
    funext c
    exact isWhitespace_commaToDot c
  unfold pyStrip
  rw [List.dropWhile_map, hws, ← List.map_reverse, List.dropWhile_map, hws, ← List.map_reverse]

theorem num_comma_invariant (s : String) :
    _num (some ⟨s.data.map commaToDot⟩) = _num (some s) := by
  show parseDec ((pyStrip (s.data.map commaToDot)).map commaToDot) =
    parseDec ((pyStrip s.data).map commaToDot)
  rw [pyStrip_map_commaToDot, List.map_map]
  congr 1
  exact List.map_congr_left (fun c _ => commaToDot_invol c)

/-! Resampler branch lemmas. -/

theorem apply_frequency_daily_like {t : Table YMD} {k : String}
    (h0 : t.rows.isEmpty = false) (hk1 : k ≠ "Ayda 2 Kez") (hk2 : freqMapGet k = none) :
    apply_frequency t k = ⟨t.cols, ffill (sortRows t.rows)⟩ := by
  unfold apply_frequency
  rw [h0]
  rw [if_neg (by simp), if_neg hk1, hk2]

theorem apply_frequency_resample {t : Table YMD} {k code : String}
    (h0 : t.rows.isEmpty = false) (hk1 : k ≠ "Ayda 2 Kez") (hk2 : freqMapGet k = some code) :
    apply_frequency t k =
      resampleLast (labelFor code ((ffill (sortRows t.rows)).headI.1))
        ⟨t.cols, ffill (sortRows t.rows)⟩ := by
  unfold apply_frequency
  rw [h0]
  rw [if_neg (by simp), if_neg hk1, hk2]

theorem apply_frequency_twice_eq {t : Table YMD} (h0 : t.rows.isEmpty = false) :
    apply_frequency t ("Ayda 2 Kez") =
      (if ((monthsOf (ffill (sortRows t.rows))).flatMap (fun p =>
            [1, 15].flatMap (fun day =>
              anchorSelect (ffill (sortRows t.rows)) p.1 p.2 day))).isEmpty then
        (⟨t.cols, ffill (sortRows t.rows)⟩ : Table YMD)
      else
        ⟨t.cols, List.insertionSort rowLE
          ((monthsOf (ffill (sortRows t.rows))).flatMap (fun p =>
            [1, 15].flatMap (fun day =>
              anchorSelect (ffill (sortRows t.rows)) p.1 p.2 day)))⟩) := by
  unfold apply_frequency
  rw [h0]
  rw [if_neg (by simp), if_pos rfl]

theorem buildTable_strict (recs : List Rec) : rowsStrictSorted (buildTable recs).rows := by
  unfold buildTable rowsStrictSorted
  rw [List.map_map]
  rw [List.pairwise_map]
  have hs : List.Sorted (fun a b : Int => a ≤ b)
      (List.insertionSort (fun a b : Int => a ≤ b) (recs.map Rec.date).dedup) :=
    List.sorted_insertionSort _ _
  have hn : (List.insertionSort (fun a b : Int => a ≤ b) (recs.map Rec.date).dedup).Nodup :=
    (List.perm_insertionSort _ _).symm.nodup (List.nodup_dedup _)
  exact pairwise_of_sorted_nodup (fun a b hab hne => lt_of_le_of_ne hab hne) hs hn

theorem resampleLast_strict (lab : YMD → YMD) (t : Table YMD) :
    rowsStrictSorted (resampleLast lab t).rows := by
  unfold resampleLast rowsStrictSorted
  rw [List.map_map]
  rw [List.pairwise_map]
  have hs : List.Sorted ymdLE
      (List.insertionSort ymdLE ((t.rows.map (fun r => lab r.1)).dedup)) :=
    List.sorted_insertionSort _ _
  have hn : (List.insertionSort ymdLE ((t.rows.map (fun r => lab r.1)).dedup)).Nodup :=
    (List.perm_insertionSort _ _).symm.nodup (List.nodup_dedup _)
  exact pairwise_of_sorted_nodup (fun a b hab hne => ymdLT_of_le_of_ne hab hne) hs hn

theorem freqMapGet_none_of_not_mem {k : String} (h : k ∉ FREQUENCIES) :
    freqMapGet k = none := by
  simp only [FREQUENCIES, List.mem_cons, List.not_mem_nil, or_false, not_or] at h
  obtain ⟨h1, h2, h3, h4, h5, h6, h7, h8⟩ := h
  unfold freqMapGet
  rw [if_neg h1, if_neg h2, if_neg h3, if_neg h4, if_neg h5, if_neg h6, if_neg h7]

/-! Twice-monthly lemmas. -/

theorem monthsOf_mem {rows : List (YMD × RowVals)} {p : ℕ × ℕ} (h : p ∈ monthsOf rows) :
    ∃ r ∈ rows, r.1.y = p.1 ∧ r.1.m = p.2 := by
  unfold monthsOf at h
  rw [List.mem_insertionSort, List.mem_dedup] at h
  obtain ⟨r, hr, hrp⟩ := List.mem_map.mp h
  rw [Prod.mk.injEq] at hrp
  exact ⟨r, hr, hrp.1, hrp.2⟩

theorem monthsOf_ne_nil {rows : List (YMD × RowVals)} (h : rows ≠ []) :
    monthsOf rows ≠ [] := by
  unfold monthsOf
  intro hcon
  have hperm := List.perm_insertionSort pairLE ((rows.map (fun r => (r.1.y, r.1.m))).dedup)
  rw [hcon] at hperm
  have hded := hperm.symm.eq_nil
  rw [List.dedup_eq_nil] at hded
  exact h (List.map_eq_nil_iff.mp hded)

theorem lastDayOfMonth_ge_28 (y m : ℕ) : 28 ≤ lastDayOfMonth y m := by
  unfold lastDayOfMonth
  split
  · split <;> omega
  · split <;> omega

theorem validYMD_anchor {y m dd day : ℕ} (hv : validYMD y m dd = true)
    (hday : day = 1 ∨ day = 15) : validYMD y m day = true := by
  have h28 := lastDayOfMonth_ge_28 y m
  simp only [validYMD, Bool.and_eq_true, decide_eq_true_eq] at hv ⊢
  omega

theorem anchorSelect_eq_spec {rows : List (YMD × RowVals)} {y m day : ℕ}
    (hps : List.Pairwise (fun a b : YMD × RowVals => ymdLT a.1 b.1) rows)
    (hv : validYMD y m day = true) :
    anchorSelect rows y m day = specSelect rows y m day := by
  unfold anchorSelect specSelect
  rw [if_pos hv]
  dsimp only
  by_cases hmem : rows.any (fun r => r.1 = (⟨y, m, day⟩ : YMD)) = true
  · rw [if_pos hmem, if_pos hmem]
  · rw [if_neg hmem, if_neg hmem]
    have hffwd : List.Pairwise (fun a b : YMD × RowVals => ymdLT a.1 b.1)
        (rows.filter (fun r => ymdLE (⟨y, m, day⟩ : YMD) r.1)) := hps.filter _
    rw [minByDate_eq_head hffwd]
    cases hf : rows.filter (fun r => ymdLE (⟨y, m, day⟩ : YMD) r.1) with
    | cons r rest => rfl
    | nil =>
        dsimp only [List.head?]
        rw [maxByDate_eq_getLast (hps.filter _)]

theorem anchorSelect_ne_nil {rows : List (YMD × RowVals)} {y m : ℕ}
    (hvr : ∀ r ∈ rows, validYMD r.1.y r.1.m r.1.d = true)
    (hmem : ∃ r ∈ rows, r.1.y = y ∧ r.1.m = m) :
    anchorSelect rows y m 1 ≠ [] := by
  obtain ⟨r, hr, hy, hm⟩ := hmem
  have hvalid := hvr r hr
  have hv1 : validYMD y m 1 = true := by
    rw [← hy, ← hm]
    exact validYMD_anchor hvalid (Or.inl rfl)
  have h1d : 1 ≤ r.1.d := by
    simp only [validYMD, Bool.and_eq_true, decide_eq_true_eq] at hvalid
    omega
  unfold anchorSelect
  rw [if_pos hv1]
  dsimp only
  by_cases hmem2 : rows.any (fun x => x.1 = (⟨y, m, 1⟩ : YMD)) = true
  · rw [if_pos hmem2]
    obtain ⟨x, hx, hxe⟩ := List.any_eq_true.mp hmem2
    intro hcon
    rw [List.filter_eq_nil_iff] at hcon
    exact hcon x hx hxe
  · rw [if_neg hmem2]
    have hle : ymdLE (⟨y, m, 1⟩ : YMD) r.1 := by
      unfold ymdLE
      dsimp only
      omega
    have hrin : r ∈ rows.filter (fun x => ymdLE (⟨y, m, 1⟩ : YMD) x.1) :=
      List.mem_filter.mpr ⟨hr, by simp [hle]⟩
    cases hfil : rows.filter (fun x => ymdLE (⟨y, m, 1⟩ : YMD) x.1) with
    | nil => rw [hfil] at hrin; simp at hrin
    | cons a t => simp

theorem twiceMonthly_eq_spec {t : Table YMD} (h0 : t.rows ≠ [])
    (h2 : rowsStrictSorted t.rows)
    (hv : ∀ r ∈ t.rows, validYMD r.1.y r.1.m r.1.d = true) :
    apply_frequency t ("Ayda 2 Kez") = ⟨t.cols, twiceMonthlySpec (ffill t.rows)⟩ := by
  have h0e : t.rows.isEmpty = false := List.isEmpty_eq_false.mpr h0
  rw [apply_frequency_twice_eq h0e, sortRows_of_strict h2]
  set rows := ffill t.rows with hrowsdef
  have hps : List.Pairwise (fun a b : YMD × RowVals => ymdLT a.1 b.1) rows :=
    pairwise_fst_of_strict (ffill_strict h2)
  have hvr : ∀ r ∈ rows, validYMD r.1.y r.1.m r.1.d = true := by
    intro r hr
    have hmm : r.1 ∈ rows.map Prod.fst := List.mem_map_of_mem _ hr
    rw [hrowsdef, ffill_map_fst] at hmm
    obtain ⟨r0, hr0, hr0e⟩ := List.mem_map.mp hmm
    rw [← hr0e]
    exact hv r0 hr0
  have hout : (monthsOf rows).flatMap (fun p =>
        [1, 15].flatMap (fun day => anchorSelect rows p.1 p.2 day))
      = (monthsOf rows).flatMap (fun p =>
        [1, 15].flatMap (fun day => specSelect rows p.1 p.2 day)) := by
    apply flatMap_congr
    intro p hp
    apply flatMap_congr
    intro day hday
    obtain ⟨r, hr, hy, hm⟩ := monthsOf_mem hp
    have hvd := hvr r hr
    rw [hy, hm] at hvd
    have hday2 : day = 1 ∨ day = 15 := by simpa using hday
    exact anchorSelect_eq_spec hps (validYMD_anchor hvd hday2)
  have hrne : rows ≠ [] := by
    rw [hrowsdef]
    intro hcon
    apply h0
    have hmf := congrArg (List.map Prod.fst) hcon
    rw [ffill_map_fst] at hmf
    simpa using hmf
  have hne : ((monthsOf rows).flatMap (fun p =>
      [1, 15].flatMap (fun day => anchorSelect rows p.1 p.2 day))) ≠ [] := by
    obtain ⟨pm, rest, hm⟩ : ∃ pm rest, monthsOf rows = pm :: rest := by
      cases hmm : monthsOf rows with
      | nil => exact absurd hmm (monthsOf_ne_nil hrne)
      | cons a b => exact ⟨a, b, rfl⟩
    rw [hm, List.flatMap_cons]
    intro hcon
    rw [List.append_eq_nil] at hcon
    have h15 := hcon.1
    rw [List.flatMap_cons, List.flatMap_cons, List.flatMap_nil, List.append_nil] at h15
    rw [List.append_eq_nil] at h15
    exact anchorSelect_ne_nil hvr
      (monthsOf_mem (by rw [hm]; exact List.mem_cons_self pm rest)) h15.1
  rw [if_neg (by simpa [List.isEmpty_iff] using hne)]
  rw [hout]
  rfl

/-! ## Claim theorems -/

/-- C1: for every non-empty RateTable (strictly date-sorted rows carrying
valid calendar dates), resampling with the TwiceMonthly key selects, for
each distinct (year, month) of the gap-filled index and each anchor (the
1st and the 15th), the exact row at the anchor if present, else the
earliest row at or after it, else the latest row at or before it, else
nothing, and returns all selections re-sorted by date ascending. -/
theorem claim_C1_twice_monthly_rule (t : Table YMD) (h0 : t.rows ≠ [])
    (h1 : rowsStrictSorted t.rows)
    (h2 : ∀ r ∈ t.rows, validYMD r.1.y r.1.m r.1.d = true) :
    apply_frequency t ("Ayda 2 Kez") = ⟨t.cols, twiceMonthlySpec (ffill t.rows)⟩ :=
  twiceMonthly_eq_spec h0 h1 h2

/-- Witness for C1 at the specification's regression table. -/
theorem claim_C1_witness :
    apply_frequency tblJanFeb ("Ayda 2 Kez") =
      ⟨tblJanFeb.cols, twiceMonthlySpec (ffill tblJanFeb.rows)⟩ :=
  claim_C1_twice_monthly_rule tblJanFeb (by decide) (by decide) (by decide)

/-- C2 counterexample: a strictly sorted one-row table whose TwiceMonthly
resampling duplicates the 2024-01-20 row (both January anchors resolve to
it), so the output index is not unique. -/
theorem claim_C2_counterexample :
    rowsStrictSorted tblOne.rows ∧
    (apply_frequency tblOne ("Ayda 2 Kez")).rows.map Prod.fst =
      [⟨2024, 1, 20⟩, ⟨2024, 1, 20⟩] ∧
    ¬ rowsStrictSorted (apply_frequency tblOne ("Ayda 2 Kez")).rows :=
  ⟨by decide, by decide, by decide⟩

/-- C2 (amended): the fetch table's rows are strictly ascending in date,
and `apply_frequency` preserves the strict (ascending, unique) invariant
for every key except TwiceMonthly, whose output is sorted ascending but
may repeat a date. -/
theorem claim_C2_amended :
    (∀ (net : Int → NetResult) (s e : Int) (codes : List String),
        rowsStrictSorted (fetch_range net s e codes).1.rows) ∧
    (∀ (t : Table YMD) (k : String), k ≠ "Ayda 2 Kez" → rowsStrictSorted t.rows →
        rowsStrictSorted (apply_frequency t k).rows) ∧
    (∀ t : Table YMD, rowsStrictSorted t.rows →
        List.Pairwise ymdLE ((apply_frequency t ("Ayda 2 Kez")).rows.map Prod.fst)) := by
  refine ⟨?_, ?_, ?_⟩
  · intro net s e codes
    show rowsStrictSorted
      (if (fetchRecords net s e codes).isEmpty then Table.empty
        else buildTable (fetchRecords net s e codes)).rows
    by_cases h : (fetchRecords net s e codes).isEmpty
    · rw [if_pos h]
      exact List.Pairwise.nil
    · rw [if_neg h]
      exact buildTable_strict _
  · intro t k hk h
    by_cases h0 : t.rows.isEmpty
    · unfold apply_frequency
      rw [if_pos h0]
      exact h
    · have h0e := Bool.eq_false_iff.mpr h0
      cases hm : freqMapGet k with
      | none =>
          rw [apply_frequency_daily_like h0e hk hm]
          show rowsStrictSorted (ffill (sortRows t.rows))
          rw [sortRows_of_strict h]
          exact ffill_strict h
      | some code =>
          rw [apply_frequency_resample h0e hk hm]
          exact resampleLast_strict _ _
  · intro t h
    by_cases h0 : t.rows.isEmpty
    · unfold apply_frequency
      rw [if_pos h0]
      exact h.imp (fun hab => ymdLE_of_lt hab)
    · have h0e := Bool.eq_false_iff.mpr h0
      rw [apply_frequency_twice_eq h0e, sortRows_of_strict h]
      split
      · exact (ffill_strict h).imp (fun hab => ymdLE_of_lt hab)
      · rw [List.pairwise_map]
        exact List.sorted_insertionSort rowLE _

/-- C2 witness: concrete instances of the amended invariant. -/
theorem claim_C2_witness :
    rowsStrictSorted (fetch_range netRaises 0 1 []).1.rows ∧
    rowsStrictSorted (apply_frequency tblFull ("Aylık")).rows :=
  ⟨claim_C2_amended.1 netRaises 0 1 [],
   claim_C2_amended.2.1 tblFull ("Aylık") (by decide) (by decide)⟩

/-- C3 counterexample: on a table whose second row holds a null below a
value, the Daily key is not the identity — the null is forward-filled. -/
theorem claim_C3_counterexample : apply_frequency tblNull ("Günlük") ≠ tblNull := by
  decide

/-- C3 (amended): the Daily key returns the gap-filled table (same columns,
same dates in the same order, nulls forward-filled); it is the identity
exactly when the table has no fillable null. -/
theorem claim_C3_amended (t : Table YMD) (h0 : t.rows ≠ []) (h1 : rowsStrictSorted t.rows) :
    apply_frequency t ("Günlük") = ⟨t.cols, ffill t.rows⟩ ∧
    (ffill t.rows = t.rows → apply_frequency t ("Günlük") = t) := by
  have h0e := List.isEmpty_eq_false.mpr h0
  have hmain : apply_frequency t ("Günlük") = ⟨t.cols, ffill t.rows⟩ := by
    rw [apply_frequency_daily_like h0e (by decide) (by decide), sortRows_of_strict h1]
  exact ⟨hmain, fun hf => by rw [hmain, hf]⟩

/-- C3 witness: on a null-free table the Daily key is the identity. -/
theorem claim_C3_witness : apply_frequency tblFull ("Günlük") = tblFull :=
  (claim_C3_amended tblFull (by decide) (by decide)).2 (by decide)

/-- C4: for `start ≤ end`, the progress log visits exactly the enumerated
dates from start to end inclusive, strictly increasing, one callback per
day, for every network oracle — so per-day failures never abort the
enumeration. -/
theorem claim_C4_progress_callbacks (net : Int → NetResult) (s e : Int)
    (codes : List String) (h : s ≤ e) :
    (fetch_range net s e codes).2.map Prod.fst = dateRange s e ∧
    (dateRange s e).head? = some s ∧
    (dateRange s e).getLast? = some e ∧
    List.Pairwise (· < ·) ((fetch_range net s e codes).2.map Prod.fst) ∧
    (fetch_range net s e codes).2.length = (e - s).toNat + 1 := by
  have hlog : (fetch_range net s e codes).2 = fetchLog net s e codes := rfl
  refine ⟨?_, dateRange_head s e h, dateRange_getLast s e h, ?_, ?_⟩
  · rw [hlog]
    exact fetchLog_map_fst net s e codes
  · rw [hlog, fetchLog_map_fst]
    exact dateRange_pairwise s e
  · rw [hlog]
    unfold fetchLog
    rw [List.length_map]
    exact dateRange_length s e h

/-- Witness for C4 with an always-raising oracle over three days. -/
theorem claim_C4_witness :
    (fetch_range netRaises 0 2 []).2.map Prod.fst = dateRange 0 2 ∧
    (dateRange 0 2).getLast? = some 2 :=
  ⟨(claim_C4_progress_callbacks netRaises 0 2 [] (by decide)).1,
   (claim_C4_progress_callbacks netRaises 0 2 [] (by decide)).2.2.1⟩

/-- C5: a day answering 200 whose document parses determines its outcome by
the extracted records: zero matches report `false` and contribute no
records; at least one match reports `true` and contributes exactly the
per-currency records (with distinct currency codes). -/
theorem claim_C5_day_outcomes (net : Int → NetResult) (s e : Int)
    (codes : List String) (d : Int) (entries : List XmlEntry)
    (ps : List (String × Quote)) (hd : d ∈ dateRange s e)
    (hnet : net d = .resp 200 (some entries))
    (hps : parse_tcmb_xml (some entries) (wantedOf codes) = some ps) :
    (ps.isEmpty = true →
        (d, false) ∈ (fetch_range net s e codes).2 ∧
        (fetchRecords net s e codes).filter (fun r => r.date = d) = []) ∧
    (ps.isEmpty = false →
        (d, true) ∈ (fetch_range net s e codes).2 ∧
        (fetchRecords net s e codes).filter (fun r => r.date = d) =
          ps.map (fun p => (⟨d, p.1, p.2⟩ : Rec))) ∧
    (ps.map Prod.fst).Nodup := by
  have hday : dayResult net (wantedOf codes) d =
      (if ps.isEmpty then (([] : List Rec), false)
        else (ps.map (fun p => (⟨d, p.1, p.2⟩ : Rec)), true)) := by
    unfold dayResult
    rw [hnet]
    dsimp only
    rw [if_pos rfl, hps]
  have hfil : (fetchRecords net s e codes).filter (fun r => r.date = d) =
      (dayResult net (wantedOf codes) d).1 := by
    show ((dateRange s e).flatMap
        (fun x => (dayResult net (wantedOf codes) x).1)).filter (fun r => r.date = d) =
      (dayResult net (wantedOf codes) d).1
    exact filter_flatMap_of_nodup _ (fun x r hr => dayResult_date net _ x r hr) _
      (dateRange_nodup s e) d hd
  have hlogmem : ∀ b, (dayResult net (wantedOf codes) d).2 = b →
      (d, b) ∈ (fetch_range net s e codes).2 := by
    intro b hb
    show (d, b) ∈ fetchLog net s e codes
    unfold fetchLog
    exact List.mem_map.mpr ⟨d, hd, by rw [hb]⟩
  refine ⟨?_, ?_, ?_⟩
  · intro hempty
    refine ⟨hlogmem false (by rw [hday, if_pos hempty]), ?_⟩
    rw [hfil, hday, if_pos hempty]
  · intro hnonempty
    refine ⟨hlogmem true (by rw [hday, if_neg (by simp [hnonempty])]), ?_⟩
    rw [hfil, hday, if_neg (by simp [hnonempty])]
  · have hfold : entries.foldl (parseEntryStep (wantedOf codes)) [] = ps :=
      Option.some.inj hps
    rw [← hfold]
    exact parseFold_map_fst_nodup _ entries [] (by simp)

/-- Witness for C5 at a one-entry 200 response. -/
theorem claim_C5_witness :
    (0, true) ∈ (fetch_range netUSD 0 0 []).2 ∧
    (fetchRecords netUSD 0 0 []).filter (fun r => r.date = 0) =
      psUSD.map (fun p => (⟨0, p.1, p.2⟩ : Rec)) :=
  (claim_C5_day_outcomes netUSD 0 0 [] 0 [entryUSD] psUSD
    (by decide) rfl rfl).2.1 (by decide)

/-- C6: when every progress callback reports failure, `fetch_range` returns
the explicitly empty table (and, being a total function, raises nothing). -/
theorem claim_C6_empty_result (net : Int → NetResult) (s e : Int)
    (codes : List String)
    (h : ∀ p ∈ (fetch_range net s e codes).2, p.2 = false) :
    (fetch_range net s e codes).1 = Table.empty := by
  have hrec : fetchRecords net s e codes = [] := by
    show (dateRange s e).flatMap (fun x => (dayResult net (wantedOf codes) x).1) = []
    apply List.flatMap_eq_nil_iff.mpr
    intro x hx
    apply dayResult_of_false
    exact h (x, (dayResult net (wantedOf codes) x).2) (List.mem_map.mpr ⟨x, hx, rfl⟩)
  show (if (fetchRecords net s e codes).isEmpty then Table.empty
    else buildTable (fetchRecords net s e codes)) = Table.empty
  rw [hrec]
  rfl

/-- Witness for C6: an all-raising oracle yields the empty marker. -/
theorem claim_C6_witness : (fetch_range netRaises 0 1 []).1 = Table.empty :=
  claim_C6_empty_result netRaises 0 1 [] (by decide)

/-- C7: `_num` propagates a missing field as null, succeeds exactly on
well-formed decimal text (after stripping and comma normalization), is
insensitive to comma versus point, never raises (it is total), and parses
`"34,56"` and `"34.56"` to the same value 864/25. -/
theorem claim_C7_num_behavior :
    _num none = none ∧
    (∀ s : String, (_num (some s)).isSome = wfNum ((pyStrip s.data).map commaToDot)) ∧
    (∀ s : String, _num (some ⟨s.data.map commaToDot⟩) = _num (some s)) ∧
    _num (some ("")) = none ∧
    _num (some ("abc")) = none ∧
    _num (some ("34,56")) = some (864 / 25) ∧
    _num (some ("34.56")) = some (864 / 25) := by
  refine ⟨rfl, ?_, num_comma_invariant, by decide, by decide, ?_, ?_⟩
  · intro s
    show ((parseUnsigned (parseSign ((pyStrip s.data).map commaToDot)).2).map _).isSome =
      wfUnsigned (parseSign ((pyStrip s.data).map commaToDot)).2
    rw [← parseUnsigned_isSome]
    cases parseUnsigned (parseSign ((pyStrip s.data).map commaToDot)).2 <;> rfl
  · have h1 : _num (some ("34,56")) = some ((34 : ℚ) + (56 : ℚ) / (10 : ℚ) ^ 2) := by
      simp +decide [_num, parseDec, parseUnsigned, parseSign, pyStrip, commaToDot,
        digitsToNat, String.data]
    rw [h1]
    norm_num
  · have h1 : _num (some ("34.56")) = some ((34 : ℚ) + (56 : ℚ) / (10 : ℚ) ^ 2) := by
      simp +decide [_num, parseDec, parseUnsigned, parseSign, pyStrip, commaToDot,
        digitsToNat, String.data]
    rw [h1]
    norm_num

/-- C8 counterexample: at year 999 the URL's directory year component is
the three digits `999`, not a zero-padded four-digit field. -/
theorem claim_C8_counterexample :
    tcmb_xml_url ⟨999, 1, 1⟩ = "https://www.tcmb.gov.tr/kurlar/99901/0101999.xml" ∧
    (natRepr 999).length = 3 ∧
    tcmb_xml_url ⟨999, 1, 1⟩ ≠ "https://www.tcmb.gov.tr/kurlar/099901/01010999.xml" :=
  ⟨by decide, by decide, by decide⟩

/-- C8 (amended): the URL builder is deterministic and total by
construction, month and day are zero-padded to two digits, and the year
components are the year's decimal digits — exactly four digits for years
1000-9999 (years below 1000 render unpadded). -/
theorem claim_C8_amended (y m d : ℕ) (hy1 : 1000 ≤ y) (hy2 : y ≤ 9999)
    (hm1 : 1 ≤ m) (hm2 : m ≤ 12) (hd1 : 1 ≤ d) (hd2 : d ≤ 31) :
    tcmb_xml_url ⟨y, m, d⟩ =
      "https://www.tcmb.gov.tr/kurlar/" ++ natRepr y ++ pad2 m ++ "/" ++
        pad2 d ++ pad2 m ++ natRepr y ++ ".xml" ∧
    (natRepr y).length = 4 ∧ (pad2 m).length = 2 ∧ (pad2 d).length = 2 :=
  ⟨rfl, natRepr_length4 hy1 hy2, pad2_length hm1 (by omega), pad2_length hd1 (by omega)⟩

/-- Witness for C8 at 2024-05-07. -/
theorem claim_C8_witness :
    tcmb_xml_url ⟨2024, 5, 7⟩ =
      "https://www.tcmb.gov.tr/kurlar/" ++ natRepr 2024 ++ pad2 5 ++ "/" ++
        pad2 7 ++ pad2 5 ++ natRepr 2024 ++ ".xml" ∧
    (natRepr 2024).length = 4 ∧ (pad2 5).length = 2 ∧ (pad2 7).length = 2 :=
  claim_C8_amended 2024 5 7 (by decide) (by decide) (by decide) (by decide)
    (by decide) (by decide)

/-- C9: a key outside the fixed enumeration raises nothing and behaves
exactly like Daily: the gap-filled, date-sorted table is returned. -/
theorem claim_C9_unknown_key (t : Table YMD) (k : String) (hk : k ∉ FREQUENCIES)
    (h0 : t.rows ≠ []) :
    apply_frequency t k = ⟨t.cols, ffill (sortRows t.rows)⟩ ∧
    apply_frequency t k = apply_frequency t ("Günlük") := by
  have h0e := List.isEmpty_eq_false.mpr h0
  have hk2 : k ≠ "Ayda 2 Kez" := by
    intro hcon
    apply hk
    rw [hcon]
    decide
  have h1 := apply_frequency_daily_like h0e hk2 (freqMapGet_none_of_not_mem hk)
  have h2 := apply_frequency_daily_like h0e
    (show ("Günlük" : String) ≠ "Ayda 2 Kez" by decide) (by decide)
  exact ⟨h1, by rw [h1, h2]⟩

/-- Witness for C9 with the unknown key `"Monthly"`. -/
theorem claim_C9_witness :
    apply_frequency tblFull ("Monthly") = apply_frequency tblFull ("Günlük") :=
  (claim_C9_unknown_key tblFull ("Monthly") (by decide) (by decide)).2

/-- C10: an inverted range enumerates zero dates — no fetch is attempted,
no callback fires, and the result is the empty table, without raising. -/
theorem claim_C10_inverted_range (net : Int → NetResult) (s e : Int)
    (codes : List String) (h : e < s) :
    dateRange s e = [] ∧ fetch_range net s e codes = (Table.empty, []) := by
  have hnil := dateRange_nil s e h
  refine ⟨hnil, ?_⟩
  have hrec : fetchRecords net s e codes = [] := by
    show (dateRange s e).flatMap (fun x => (dayResult net (wantedOf codes) x).1) = []
    rw [hnil]
    rfl
  have hlog : fetchLog net s e codes = [] := by
    unfold fetchLog
    rw [hnil]
    rfl
  show (if (fetchRecords net s e codes).isEmpty then Table.empty
    else buildTable (fetchRecords net s e codes), fetchLog net s e codes) = (Table.empty, [])
  rw [hrec, hlog]
  rfl

/-- Witness for C10 with end before start. -/
theorem claim_C10_witness : fetch_range netRaises 5 3 [] = (Table.empty, []) :=
  (claim_C10_inverted_range netRaises 5 3 [] (by decide)).2

end Tcmb
